import Mathlib

/-!
Verification development for the FastPass+ priority-queue simulator
(`src/fastpass_simulator.py`).

The simulator is embedded shallowly:

* simulated clock times are rationals (`ℚ`);
* the two random sources of the program (`np.random.exponential` inside
  `generate_exponential`, and `np.random.random()` used to classify an
  arrival) are modelled as oracle streams `dur unif : ℕ → ℚ` together with
  consumption indices kept in the state, so every reachable behaviour of the
  program corresponds to some choice of streams;
* the event heap (`heapq` over `Event.__lt__`, which compares by `time`
  only) is modelled as a list together with `popMin`, which removes a
  minimum-`time` element, exactly the documented `heappop` contract;
* the Python `while` loop is run on explicit fuel (the loop need not
  terminate for adversarial duration streams, e.g. all-zero gaps);
* object identity of `Customer` is made explicit through an `id` field
  drawn from a counter, and the mutation `event.customer.departure_time =
  current_time` is recorded by appending the updated customer to a
  `completed` list, the only place the object remains observable.
-/

set_option linter.unusedVariables false

/-- Customer classes (`FASTPASS = 'fastpass'`, `REGULAR = 'regular'`). -/
inductive CType where
  | fastpass
  | regular
deriving DecidableEq

/-- Event kinds (`ARRIVAL = 'arrival'`, `DEPARTURE = 'departure'`). -/
inductive EType where
  | arrival
  | departure
deriving DecidableEq

/-- `Customer.__init__`: type, arrival time, `departure_time = None`;
the `id` field makes Python object identity explicit. -/
structure Customer where
  id : ℕ
  ctype : CType
  arrival_time : ℚ
  departure_time : Option ℚ
deriving DecidableEq

/-- The `residence_time` property: `departure_time - arrival_time`,
`None` while not yet departed. -/
def Customer.residence_time (c : Customer) : Option ℚ :=
  c.departure_time.map (fun d => d - c.arrival_time)

/-- `Event.__init__(time, event_type, customer=None)`; `Event.__lt__`
compares by `time` only. -/
structure Event where
  time : ℚ
  etype : EType
  customer : Option Customer
deriving DecidableEq

/-- One per-class entry of the `stats` dictionary. -/
structure ClassStats where
  total_customers : ℕ
  completed_customers : ℕ
  total_residence_time : ℚ
  avg_residence_time : ℚ
  max_residence_time : ℚ
deriving DecidableEq

/-- The initial per-class statistics record (all fields zero). -/
def initClassStats : ClassStats := ⟨0, 0, 0, 0, 0⟩

/-- The `stats` dictionary, keyed by the two customer types. -/
structure Stats where
  fastpass : ClassStats
  regular : ClassStats
deriving DecidableEq

/-- Dictionary lookup `stats[customer_type]`. -/
def Stats.get (st : Stats) : CType → ClassStats
  | CType.fastpass => st.fastpass
  | CType.regular => st.regular

/-- Dictionary update of the entry for one customer type. -/
def Stats.upd (st : Stats) (k : CType) (g : ClassStats → ClassStats) : Stats :=
  match k with
  | CType.fastpass => { st with fastpass := g st.fastpass }
  | CType.regular => { st with regular := g st.regular }

/-- `SIMULATION_TIME = 50000`. -/
def SIMULATION_TIME : ℚ := 50000

/-- `WARM_UP_TIME = 5000`. -/
def WARM_UP_TIME : ℚ := 5000

/-- `SERVICE_RATE = 1.0`. -/
def SERVICE_RATE : ℚ := 1

/-- The mutable state of `simulate_fastpass_system`: the local variables
of the function plus the oracle indices, the identity counter and the
`completed` bookkeeping list. -/
structure SimState where
  current_time : ℚ
  server_busy : Bool
  server_end_time : ℚ
  fastpass_queue : List Customer
  regular_queue : List Customer
  event_queue : List Event
  stats : Stats
  dur_idx : ℕ
  unif_idx : ℕ
  next_id : ℕ
  completed : List Customer
deriving DecidableEq

/-- Model of `heapq.heappop`: remove a minimum-`time` event (the earliest
indexed one among ties, ties being unspecified in the reference). -/
def popMin : List Event → Option (Event × List Event)
  | [] => none
  | e :: es =>
    match popMin es with
    | none => some (e, [])
    | some (m, rest) => if e.time ≤ m.time then some (e, es) else some (m, e :: rest)

/-- The tail of `start_service` once a customer has been selected: mark the
server busy, draw a service time, set `server_end_time = time + service_time`
and push the departure event. -/
def serveCustomer (dur : ℕ → ℚ) (time : ℚ) (c : Customer) (s : SimState) : SimState :=
  { s with
    server_busy := true
    server_end_time := time + dur s.dur_idx
    dur_idx := s.dur_idx + 1
    event_queue := s.event_queue ++ [⟨time + dur s.dur_idx, EType.departure, some c⟩] }

/-- `start_service(time)`: pop the head of the FastPass queue if non-empty,
else the head of the regular queue, else return; then serve the customer.
Note the function itself performs no `server_busy` check. -/
def startService (dur : ℕ → ℚ) (time : ℚ) (s : SimState) : SimState :=
  match s.fastpass_queue with
  | c :: rest => serveCustomer dur time c { s with fastpass_queue := rest }
  | [] =>
    match s.regular_queue with
    | c :: rest => serveCustomer dur time c { s with regular_queue := rest }
    | [] => s

/-- The `if customer_type == FASTPASS` / `else` enqueue of a new arrival
into its class queue. -/
def arrivalEnqueue (c : Customer) (s : SimState) : SimState :=
  if c.ctype = CType.fastpass then { s with fastpass_queue := s.fastpass_queue ++ [c] }
  else { s with regular_queue := s.regular_queue ++ [c] }

/-- `next_arrival_time = current_time + generate_exponential(arrival_rate)`
followed by the push of the next arrival event. -/
def scheduleNextArrival (dur : ℕ → ℚ) (t : ℚ) (s : SimState) : SimState :=
  { s with
    dur_idx := s.dur_idx + 1
    event_queue := s.event_queue ++ [⟨t + dur s.dur_idx, EType.arrival, none⟩] }

/-- The arrival branch of the event loop: classify via
`np.random.random() < fastpass_fraction`, create the customer, count it,
enqueue it, schedule the next arrival, and dispatch if the server is idle. -/
def processArrival (dur unif : ℕ → ℚ) (fastpass_fraction : ℚ) (s : SimState) : SimState :=
  let u := unif s.unif_idx
  let ct := if u < fastpass_fraction then CType.fastpass else CType.regular
  let c : Customer := ⟨s.next_id, ct, s.current_time, none⟩
  let s1 := { s with
    unif_idx := s.unif_idx + 1
    next_id := s.next_id + 1
    stats := s.stats.upd ct (fun cs => { cs with total_customers := cs.total_customers + 1 }) }
  let s2 := arrivalEnqueue c s1
  let s3 := scheduleNextArrival dur s.current_time s2
  if s3.server_busy then s3 else startService dur s3.current_time s3

/-- The first half of the departure branch: free the server, record the
customer's departure time, and credit the statistics strictly after the
warm-up horizon. -/
def recordDeparture (warmup : ℚ) (c : Customer) (s : SimState) : SimState :=
  let c2 := { c with departure_time := some s.current_time }
  let s1 := { s with server_busy := false, completed := s.completed ++ [c2] }
  let r := s.current_time - c.arrival_time
  if warmup < s.current_time then
    { s1 with stats := s1.stats.upd c.ctype (fun cs =>
        { cs with
          completed_customers := cs.completed_customers + 1
          total_residence_time := cs.total_residence_time + r
          max_residence_time := max cs.max_residence_time r }) }
  else s1

/-- The departure branch of the event loop: record the departure, then
dispatch if anyone is waiting. -/
def processDeparture (dur : ℕ → ℚ) (warmup : ℚ) (c : Customer) (s : SimState) : SimState :=
  let s2 := recordDeparture warmup c s
  if s2.fastpass_queue.isEmpty && s2.regular_queue.isEmpty then s2
  else startService dur s2.current_time s2

/-- Processing of one popped event: set `current_time = event.time` and
branch on the kind.  A departure event whose `customer` field is `None`
would crash the Python program (`AttributeError`); this is the `none`
result. -/
def stepEvent (dur unif : ℕ → ℚ) (fastpass_fraction warmup : ℚ) (e : Event)
    (s : SimState) : Option SimState :=
  let s0 := { s with current_time := e.time }
  match e.etype with
  | EType.arrival => some (processArrival dur unif fastpass_fraction s0)
  | EType.departure =>
    match e.customer with
    | some c => some (processDeparture dur warmup c s0)
    | none => none

/-- The main loop `while event_queue and current_time < SIMULATION_TIME`,
run on fuel; the second component is the trace of popped event times. -/
def runAux (dur unif : ℕ → ℚ) (fastpass_fraction horizon warmup : ℚ) :
    ℕ → SimState → SimState × List ℚ
  | 0, s => (s, [])
  | fuel + 1, s =>
    if s.current_time < horizon then
      match popMin s.event_queue with
      | none => (s, [])
      | some (e, rest) =>
        match stepEvent dur unif fastpass_fraction warmup e { s with event_queue := rest } with
        | none => ({ s with event_queue := rest, current_time := e.time }, [e.time])
        | some s2 =>
          let p := runAux dur unif fastpass_fraction horizon warmup fuel s2
          (p.1, e.time :: p.2)
    else (s, [])

/-- The state right before the loop: clock at zero, server idle, queues
empty, zero statistics, and the first arrival already pushed at
`generate_exponential(arrival_rate)`, i.e. at the first oracle draw. -/
def initState (dur : ℕ → ℚ) : SimState :=
  { current_time := 0
    server_busy := false
    server_end_time := 0
    fastpass_queue := []
    regular_queue := []
    event_queue := [⟨dur 0, EType.arrival, none⟩]
    stats := ⟨initClassStats, initClassStats⟩
    dur_idx := 1
    unif_idx := 0
    next_id := 0
    completed := [] }

/-- The final-statistics pass over one class: set the average only when the
completed count is positive (otherwise `avg_residence_time` keeps its
initial value `0.0`). -/
def finalizeClass (cs : ClassStats) : ClassStats :=
  if 0 < cs.completed_customers then
    { cs with avg_residence_time := cs.total_residence_time / (cs.completed_customers : ℚ) }
  else cs

/-- The final-statistics pass over both classes. -/
def finalizeStats (st : Stats) : Stats :=
  ⟨finalizeClass st.fastpass, finalizeClass st.regular⟩

/-- Full run of the loop from the initial state. -/
def runSim (dur unif : ℕ → ℚ) (fastpass_fraction : ℚ) (fuel : ℕ) : SimState × List ℚ :=
  runAux dur unif fastpass_fraction SIMULATION_TIME WARM_UP_TIME fuel (initState dur)

/-- `simulate_fastpass_system(arrival_rate, fastpass_fraction)`: note that
the function performs no validation of either parameter, and that
`arrival_rate` influences the run only through the sampled gaps (here the
oracle stream), so it is otherwise unused. -/
def simulate_fastpass_system (arrival_rate fastpass_fraction : ℚ) (dur unif : ℕ → ℚ)
    (fuel : ℕ) : Stats :=
  finalizeStats (runSim dur unif fastpass_fraction fuel).1.stats

/-! ### Basic lemmas about the embedded operations -/

theorem popMin_eq_none_iff (q : List Event) : popMin q = none ↔ q = [] := by
  cases q with
  | nil => simp [popMin]
  | cons e es =>
    cases h : popMin es with
    | none => simp [popMin, h]
    | some p => simp [popMin, h]; split <;> simp

theorem startService_stats (dur : ℕ → ℚ) (t : ℚ) (s : SimState) :
    (startService dur t s).stats = s.stats := by
  cases hf : s.fastpass_queue with
  | cons c rest => simp [startService, hf, serveCustomer]
  | nil => cases hr : s.regular_queue <;> simp [startService, hf, hr, serveCustomer]

theorem startService_completed (dur : ℕ → ℚ) (t : ℚ) (s : SimState) :
    (startService dur t s).completed = s.completed := by
  cases hf : s.fastpass_queue with
  | cons c rest => simp [startService, hf, serveCustomer]
  | nil => cases hr : s.regular_queue <;> simp [startService, hf, hr, serveCustomer]

theorem startService_current_time (dur : ℕ → ℚ) (t : ℚ) (s : SimState) :
    (startService dur t s).current_time = s.current_time := by
  cases hf : s.fastpass_queue with
  | cons c rest => simp [startService, hf, serveCustomer]
  | nil => cases hr : s.regular_queue <;> simp [startService, hf, hr, serveCustomer]

theorem Stats.get_upd_same (st : Stats) (k : CType) (g : ClassStats → ClassStats) :
    (st.upd k g).get k = g (st.get k) := by
  cases k <;> rfl

theorem Stats.get_upd_ne (st : Stats) (k k' : CType) (g : ClassStats → ClassStats)
    (h : k' ≠ k) : (st.upd k g).get k' = st.get k' := by
  cases k <;> cases k' <;> first | rfl | exact absurd rfl h

/-- Claim C1: with the server not busy, `start_service` pops the head of the
priority queue when non-empty, else the head of the regular queue, else is a
no-op; for the selected customer the server becomes busy until
`time + duration` and exactly one departure event at that time is pushed;
the regular queue is untouched whenever the priority queue is non-empty. -/
theorem startService_dispatch (dur : ℕ → ℚ) (t : ℚ) (s : SimState)
    (hb : s.server_busy = false) :
    (s.fastpass_queue = [] → s.regular_queue = [] → startService dur t s = s) ∧
    (∀ c rest, s.fastpass_queue = c :: rest →
      startService dur t s =
        { s with fastpass_queue := rest, server_busy := true,
                 server_end_time := t + dur s.dur_idx, dur_idx := s.dur_idx + 1,
                 event_queue := s.event_queue ++ [⟨t + dur s.dur_idx, EType.departure, some c⟩] }) ∧
    (∀ c rest, s.fastpass_queue = [] → s.regular_queue = c :: rest →
      startService dur t s =
        { s with regular_queue := rest, server_busy := true,
                 server_end_time := t + dur s.dur_idx, dur_idx := s.dur_idx + 1,
                 event_queue := s.event_queue ++ [⟨t + dur s.dur_idx, EType.departure, some c⟩] }) ∧
    (s.fastpass_queue ≠ [] → (startService dur t s).regular_queue = s.regular_queue) := by
  refine ⟨?_, ?_, ?_, ?_⟩
  · intro h1 h2
    simp [startService, h1, h2]
  · intro c rest h
    simp [startService, h, serveCustomer]
  · intro c rest h1 h2
    simp [startService, h1, h2, serveCustomer]
  · intro h
    cases hq : s.fastpass_queue with
    | nil => exact absurd hq h
    | cons c rest => simp [startService, hq, serveCustomer]

/-- Concrete idle state with one waiting FastPass customer, used to
instantiate `startService_dispatch`. -/
def c1state : SimState :=
  ⟨0, false, 0, [⟨0, CType.fastpass, 0, none⟩], [], [], ⟨initClassStats, initClassStats⟩,
    0, 0, 1, []⟩

theorem startService_dispatch_witness :
    startService (fun _ => (1 : ℚ)) 0 c1state =
      { c1state with
        fastpass_queue := []
        server_busy := true
        server_end_time := 0 + (1 : ℚ)
        dur_idx := 0 + 1
        event_queue := c1state.event_queue ++
          [⟨0 + (1 : ℚ), EType.departure, some ⟨0, CType.fastpass, 0, none⟩⟩] } :=
  (startService_dispatch (fun _ => 1) 0 c1state rfl).2.1 ⟨0, CType.fastpass, 0, none⟩ [] rfl

/-- Concrete state with the server busy and one waiting FastPass
customer. -/
def c2state : SimState :=
  ⟨0, true, 5, [⟨0, CType.fastpass, 0, none⟩], [], [], ⟨initClassStats, initClassStats⟩,
    0, 0, 1, []⟩

/-- Claim C2 counterexample: `start_service` itself performs no busy check,
so invoking it on a state with a busy server is not a no-op — the waiting
customer is popped from the queue. -/
theorem startService_busy_not_noop :
    c2state.server_busy = true ∧ startService (fun _ => (1 : ℚ)) 0 c2state ≠ c2state ∧
    (startService (fun _ => (1 : ℚ)) 0 c2state).fastpass_queue = [] ∧
    c2state.fastpass_queue ≠ [] := by
  refine ⟨rfl, ?_, ?_, ?_⟩
  · intro h
    have h2 := congrArg SimState.fastpass_queue h
    simp [c2state, startService, serveCustomer] at h2
  · simp [c2state, startService, serveCustomer]
  · simp [c2state]

/-- Claim C2 (amended): the busy guard lives at the call sites, not inside
`start_service`; when an arrival event is handled with the server busy, no
customer is removed from either waiting queue (the queues change only by
appending the new arrival), the server state and `server_end_time` are
unchanged, and no departure event is pushed — only the next-arrival event. -/
theorem arrival_while_busy_no_dispatch (dur unif : ℕ → ℚ) (f w : ℚ) (e : Event)
    (s : SimState) (he : e.etype = EType.arrival) (hb : s.server_busy = true) :
    ∃ s2, stepEvent dur unif f w e s = some s2 ∧
      s2.server_busy = true ∧ s2.server_end_time = s.server_end_time ∧
      (s2.fastpass_queue = s.fastpass_queue ∨
        ∃ c, s2.fastpass_queue = s.fastpass_queue ++ [c]) ∧
      (s2.regular_queue = s.regular_queue ∨
        ∃ c, s2.regular_queue = s.regular_queue ++ [c]) ∧
      ∃ ta, s2.event_queue = s.event_queue ++ [⟨ta, EType.arrival, none⟩] := by
  obtain ⟨t, k, oc⟩ := e
  cases he
  by_cases hu : unif s.unif_idx < f
  · refine ⟨_, rfl, ?_⟩
    simp [processArrival, arrivalEnqueue, scheduleNextArrival, hu, hb, Stats.upd]
  · refine ⟨_, rfl, ?_⟩
    simp [processArrival, arrivalEnqueue, scheduleNextArrival, hu, hb, Stats.upd]

theorem arrival_while_busy_no_dispatch_witness :
    ∃ s2, stepEvent (fun _ => (1 : ℚ)) (fun _ => (1 : ℚ)/2) (1 : ℚ) 5000
        ⟨3, EType.arrival, none⟩ c2state = some s2 ∧
      s2.server_busy = true ∧ s2.server_end_time = c2state.server_end_time ∧
      (s2.fastpass_queue = c2state.fastpass_queue ∨
        ∃ c, s2.fastpass_queue = c2state.fastpass_queue ++ [c]) ∧
      (s2.regular_queue = c2state.regular_queue ∨
        ∃ c, s2.regular_queue = c2state.regular_queue ++ [c]) ∧
      ∃ ta, s2.event_queue = c2state.event_queue ++ [⟨ta, EType.arrival, none⟩] :=
  arrival_while_busy_no_dispatch (fun _ => 1) (fun _ => 1/2) 1 5000
    ⟨3, EType.arrival, none⟩ c2state rfl rfl

theorem ctype_regular_ne_fastpass : (CType.regular = CType.fastpass) = False := by
  simp

theorem ctype_fastpass_ne_regular : (CType.fastpass = CType.regular) = False := by
  simp

/-- Constant duration stream used for the invalid-configuration run. -/
def c3dur : ℕ → ℚ := fun _ => 50001

/-- Constant uniform stream used for the invalid-configuration run. -/
def c3unif : ℕ → ℚ := fun _ => 1/2

/-- Claim C3 (code bug): `simulate_fastpass_system` performs no
configuration validation at all.  With `fastpass_fraction = 2` (outside
`[0,1]`) the run proceeds normally and classifies every arrival as
FastPass (`np.random.random() < 2` is always true), i.e. the value is
silently treated as clamped instead of being rejected. -/
theorem simulate_accepts_invalid_fraction :
    simulate_fastpass_system (1/2) 2 c3dur c3unif 5 =
      ⟨⟨1, 0, 0, 0, 0⟩, ⟨0, 0, 0, 0, 0⟩⟩ := by
  norm_num [simulate_fastpass_system, runSim, runAux, initState, stepEvent, processArrival,
    arrivalEnqueue, scheduleNextArrival, processDeparture, recordDeparture, startService, serveCustomer, popMin, finalizeStats, finalizeClass,
    initClassStats, Stats.get, Stats.upd, SIMULATION_TIME, WARM_UP_TIME, c3dur, c3unif,
    ctype_regular_ne_fastpass, ctype_fastpass_ne_regular]

/-- Constant duration stream for the degenerate-fraction run. -/
def c4dur : ℕ → ℚ := fun _ => 1

/-- Constant uniform stream for the degenerate-fraction run. -/
def c4unif : ℕ → ℚ := fun _ => 1/2

/-- Claim C4 (code bug): with `fastpass_fraction = 0` the FastPass class
has zero arrivals and zero completions, and its reported
`avg_residence_time` is the plain numeric value `0.0` (the initial value is
kept by the finalization pass), not a sentinel or optional. -/
theorem avg_zero_when_no_completions :
    (simulate_fastpass_system (1/2) 0 c4dur c4unif 6).fastpass = ⟨0, 0, 0, 0, 0⟩ := by
  norm_num [simulate_fastpass_system, runSim, runAux, initState, stepEvent, processArrival,
    arrivalEnqueue, scheduleNextArrival, processDeparture, recordDeparture, startService, serveCustomer, popMin, finalizeStats, finalizeClass,
    initClassStats, Stats.get, Stats.upd, SIMULATION_TIME, WARM_UP_TIME, c4dur, c4unif,
    ctype_regular_ne_fastpass, ctype_fastpass_ne_regular]

/-- Claim C5 (amended): one loop iteration is a no-op exactly when the
event queue is empty or the current time has reached or passed the horizon
(the code continues only while `current_time < SIMULATION_TIME`); the
check happens only between pops, so the event carrying time to or past the
horizon is itself still processed. -/
theorem runAux_stop_iff (dur unif : ℕ → ℚ) (f hor w : ℚ) (fuel : ℕ) (s : SimState) :
    runAux dur unif f hor w (fuel + 1) s = (s, []) ↔
      (s.event_queue = [] ∨ ¬ s.current_time < hor) := by
  by_cases hlt : s.current_time < hor
  · cases hq : popMin s.event_queue with
    | none =>
      have h0 : s.event_queue = [] := (popMin_eq_none_iff _).mp hq
      simp only [runAux, hq]
      simp [h0, hlt]
    | some p =>
      obtain ⟨e, rest⟩ := p
      have hne : s.event_queue ≠ [] := by
        intro h
        rw [h] at hq
        simp [popMin] at hq
      simp only [runAux, if_pos hlt, hq]
      cases hs : stepEvent dur unif f w e { s with event_queue := rest } with
      | none => simp [hs, hne, hlt]
      | some s2 => simp [hs, hne, hlt]
  · simp [runAux, hlt]

/-- Duration stream whose first draw lands the first arrival exactly at the
horizon. -/
def c5dur : ℕ → ℚ := fun n => if n = 0 then 50000 else 1

/-- Constant uniform stream for the horizon-boundary run. -/
def c5unif : ℕ → ℚ := fun _ => 1/2

/-- The state actually reached after the horizon-boundary run. -/
def c5state : SimState := (runSim c5dur c5unif 0 10).1

/-- Claim C5 counterexample: a reachable state at which the loop stops
although the event queue is non-empty and the current time has not
exceeded (only reached) the horizon, refuting the claim that the loop
stops exactly when the queue is empty or the horizon has been exceeded. -/
theorem loop_stops_at_exact_horizon :
    c5state.event_queue ≠ [] ∧ ¬ SIMULATION_TIME < c5state.current_time ∧
    runAux c5dur c5unif 0 SIMULATION_TIME WARM_UP_TIME 1 c5state = (c5state, []) := by
  norm_num [c5state, runSim, runAux, initState, stepEvent, processArrival, arrivalEnqueue, scheduleNextArrival,
    processDeparture, recordDeparture, startService, serveCustomer, popMin, initClassStats, Stats.get, Stats.upd,
    SIMULATION_TIME, WARM_UP_TIME, c5dur, c5unif, ctype_regular_ne_fastpass,
    ctype_fastpass_ne_regular]
  simp

/-- The statistics effect of the departure handler, isolated: the final
dispatch never touches the statistics. -/
theorem processDeparture_stats_eq (dur : ℕ → ℚ) (w : ℚ) (c : Customer) (s : SimState) :
    (processDeparture dur w c s).stats =
      (if w < s.current_time then
        s.stats.upd c.ctype (fun cs =>
          { cs with
            completed_customers := cs.completed_customers + 1
            total_residence_time := cs.total_residence_time + (s.current_time - c.arrival_time)
            max_residence_time := max cs.max_residence_time (s.current_time - c.arrival_time) })
      else s.stats) := by
  by_cases hw : w < s.current_time <;>
    simp only [processDeparture, recordDeparture, hw, if_pos, if_neg, not_false_iff] <;>
    split <;>
    simp [startService_stats, hw]

/-- Claim C7: a departure is credited to its class's statistics if and only
if its time strictly exceeds the warm-up horizon: the completed count,
residence-time sum and maximum are updated exactly when
`warmup < currentTime`, a departure exactly at the warm-up horizon changes
no statistics, and the other class's statistics are never touched. -/
theorem departure_warmup_strict (dur : ℕ → ℚ) (w : ℚ) (c : Customer) (s : SimState) :
    ((processDeparture dur w c s).stats.get c.ctype).completed_customers
        = (s.stats.get c.ctype).completed_customers
          + (if w < s.current_time then 1 else 0) ∧
    ((processDeparture dur w c s).stats.get c.ctype).total_residence_time
        = (s.stats.get c.ctype).total_residence_time
          + (if w < s.current_time then s.current_time - c.arrival_time else 0) ∧
    ((processDeparture dur w c s).stats.get c.ctype).max_residence_time
        = (if w < s.current_time
           then max (s.stats.get c.ctype).max_residence_time
                (s.current_time - c.arrival_time)
           else (s.stats.get c.ctype).max_residence_time) ∧
    (¬ w < s.current_time → (processDeparture dur w c s).stats = s.stats) ∧
    (∀ k, k ≠ c.ctype →
      (processDeparture dur w c s).stats.get k = s.stats.get k) := by
  by_cases hw : w < s.current_time
  · refine ⟨?_, ?_, ?_, fun h => absurd hw h, fun k hk => ?_⟩
    · rw [processDeparture_stats_eq]
      simp [hw, Stats.get_upd_same]
    · rw [processDeparture_stats_eq]
      simp [hw, Stats.get_upd_same]
    · rw [processDeparture_stats_eq]
      simp [hw, Stats.get_upd_same]
    · rw [processDeparture_stats_eq]
      simp [hw, Stats.get_upd_ne _ _ _ _ hk]
  · refine ⟨?_, ?_, ?_, fun _ => ?_, fun k hk => ?_⟩ <;>
      rw [processDeparture_stats_eq] <;> simp [hw]

/-- A state whose clock sits exactly at the warm-up horizon. -/
def c7state : SimState :=
  ⟨5000, true, 5000, [], [], [], ⟨initClassStats, initClassStats⟩, 0, 0, 1, []⟩

/-- A customer departing exactly at the warm-up horizon. -/
def c7cust : Customer := ⟨0, CType.regular, 4000, none⟩

theorem departure_warmup_strict_witness :
    (processDeparture (fun _ => (1 : ℚ)) WARM_UP_TIME c7cust c7state).stats = c7state.stats :=
  (departure_warmup_strict (fun _ => 1) WARM_UP_TIME c7cust c7state).2.2.2.1
    (by norm_num [c7state, WARM_UP_TIME])

/-! ### Scheduler ordering: popMin returns a minimal element -/

theorem popMin_perm (q : List Event) (e : Event) (r : List Event)
    (h : popMin q = some (e, r)) : q.Perm (e :: r) := by
  induction q generalizing e r with
  | nil => simp [popMin] at h
  | cons a as ih =>
    simp only [popMin] at h
    cases hq : popMin as with
    | none =>
      rw [hq] at h
      obtain rfl : as = [] := (popMin_eq_none_iff _).mp hq
      simp at h
      obtain ⟨rfl, rfl⟩ := h
      exact List.Perm.refl _
    | some p =>
      obtain ⟨m, rest⟩ := p
      simp only [hq] at h
      have h2 := ih _ _ hq
      by_cases hle : a.time ≤ m.time
      · rw [if_pos hle] at h
        simp at h
        obtain ⟨rfl, rfl⟩ := h
        exact List.Perm.refl _
      · rw [if_neg hle] at h
        simp at h
        obtain ⟨rfl, rfl⟩ := h
        exact (h2.cons a).trans (List.Perm.swap m a rest)

theorem popMin_min (q : List Event) (e : Event) (r : List Event)
    (h : popMin q = some (e, r)) : ∀ x ∈ q, e.time ≤ x.time := by
  induction q generalizing e r with
  | nil => simp [popMin] at h
  | cons a as ih =>
    simp only [popMin] at h
    cases hq : popMin as with
    | none =>
      rw [hq] at h
      obtain rfl : as = [] := (popMin_eq_none_iff _).mp hq
      simp at h
      obtain ⟨rfl, rfl⟩ := h
      intro x hx
      rw [List.mem_singleton] at hx
      subst hx
      exact le_refl _
    | some p =>
      obtain ⟨m, rest⟩ := p
      simp only [hq] at h
      have hmin := ih _ _ hq
      by_cases hle : a.time ≤ m.time
      · rw [if_pos hle] at h
        simp at h
        obtain ⟨rfl, rfl⟩ := h
        intro x hx
        rcases List.mem_cons.mp hx with rfl | hx
        · exact le_refl _
        · exact le_trans hle (hmin x hx)
      · rw [if_neg hle] at h
        simp at h
        obtain ⟨rfl, rfl⟩ := h
        intro x hx
        rcases List.mem_cons.mp hx with rfl | hx
        · exact le_of_lt (lt_of_not_le hle)
        · exact hmin x hx

theorem popMin_mem (q : List Event) (e : Event) (r : List Event)
    (h : popMin q = some (e, r)) : e ∈ q :=
  (popMin_perm q e r h).symm.subset (List.mem_cons_self e r)

/-! ### Field-preservation lemmas for the handler pieces -/

@[simp]
theorem arrivalEnqueue_event_queue (c : Customer) (s : SimState) :
    (arrivalEnqueue c s).event_queue = s.event_queue := by
  unfold arrivalEnqueue
  split <;> rfl

@[simp]
theorem arrivalEnqueue_current_time (c : Customer) (s : SimState) :
    (arrivalEnqueue c s).current_time = s.current_time := by
  unfold arrivalEnqueue
  split <;> rfl

@[simp]
theorem arrivalEnqueue_server_busy (c : Customer) (s : SimState) :
    (arrivalEnqueue c s).server_busy = s.server_busy := by
  unfold arrivalEnqueue
  split <;> rfl

@[simp]
theorem arrivalEnqueue_completed (c : Customer) (s : SimState) :
    (arrivalEnqueue c s).completed = s.completed := by
  unfold arrivalEnqueue
  split <;> rfl

@[simp]
theorem arrivalEnqueue_stats (c : Customer) (s : SimState) :
    (arrivalEnqueue c s).stats = s.stats := by
  unfold arrivalEnqueue
  split <;> rfl

@[simp]
theorem arrivalEnqueue_dur_idx (c : Customer) (s : SimState) :
    (arrivalEnqueue c s).dur_idx = s.dur_idx := by
  unfold arrivalEnqueue
  split <;> rfl

@[simp]
theorem arrivalEnqueue_next_id (c : Customer) (s : SimState) :
    (arrivalEnqueue c s).next_id = s.next_id := by
  unfold arrivalEnqueue
  split <;> rfl

@[simp]
theorem scheduleNextArrival_event_queue (dur : ℕ → ℚ) (t : ℚ) (s : SimState) :
    (scheduleNextArrival dur t s).event_queue =
      s.event_queue ++ [⟨t + dur s.dur_idx, EType.arrival, none⟩] := rfl

@[simp]
theorem scheduleNextArrival_current_time (dur : ℕ → ℚ) (t : ℚ) (s : SimState) :
    (scheduleNextArrival dur t s).current_time = s.current_time := rfl

@[simp]
theorem scheduleNextArrival_server_busy (dur : ℕ → ℚ) (t : ℚ) (s : SimState) :
    (scheduleNextArrival dur t s).server_busy = s.server_busy := rfl

@[simp]
theorem scheduleNextArrival_completed (dur : ℕ → ℚ) (t : ℚ) (s : SimState) :
    (scheduleNextArrival dur t s).completed = s.completed := rfl

@[simp]
theorem scheduleNextArrival_stats (dur : ℕ → ℚ) (t : ℚ) (s : SimState) :
    (scheduleNextArrival dur t s).stats = s.stats := rfl

@[simp]
theorem scheduleNextArrival_fastpass_queue (dur : ℕ → ℚ) (t : ℚ) (s : SimState) :
    (scheduleNextArrival dur t s).fastpass_queue = s.fastpass_queue := rfl

@[simp]
theorem scheduleNextArrival_regular_queue (dur : ℕ → ℚ) (t : ℚ) (s : SimState) :
    (scheduleNextArrival dur t s).regular_queue = s.regular_queue := rfl

@[simp]
theorem scheduleNextArrival_next_id (dur : ℕ → ℚ) (t : ℚ) (s : SimState) :
    (scheduleNextArrival dur t s).next_id = s.next_id := rfl

@[simp]
theorem recordDeparture_event_queue (w : ℚ) (c : Customer) (s : SimState) :
    (recordDeparture w c s).event_queue = s.event_queue := by
  unfold recordDeparture
  split <;> rfl

@[simp]
theorem recordDeparture_current_time (w : ℚ) (c : Customer) (s : SimState) :
    (recordDeparture w c s).current_time = s.current_time := by
  unfold recordDeparture
  split <;> rfl

@[simp]
theorem recordDeparture_fastpass_queue (w : ℚ) (c : Customer) (s : SimState) :
    (recordDeparture w c s).fastpass_queue = s.fastpass_queue := by
  unfold recordDeparture
  split <;> rfl

@[simp]
theorem recordDeparture_regular_queue (w : ℚ) (c : Customer) (s : SimState) :
    (recordDeparture w c s).regular_queue = s.regular_queue := by
  unfold recordDeparture
  split <;> rfl

@[simp]
theorem recordDeparture_completed (w : ℚ) (c : Customer) (s : SimState) :
    (recordDeparture w c s).completed =
      s.completed ++ [{ c with departure_time := some s.current_time }] := by
  unfold recordDeparture
  split <;> rfl

@[simp]
theorem recordDeparture_server_busy (w : ℚ) (c : Customer) (s : SimState) :
    (recordDeparture w c s).server_busy = false := by
  unfold recordDeparture
  split <;> rfl

@[simp]
theorem recordDeparture_next_id (w : ℚ) (c : Customer) (s : SimState) :
    (recordDeparture w c s).next_id = s.next_id := by
  unfold recordDeparture
  split <;> rfl

@[simp]
theorem startService_stats_simp (dur : ℕ → ℚ) (t : ℚ) (s : SimState) :
    (startService dur t s).stats = s.stats := startService_stats dur t s

@[simp]
theorem startService_completed_simp (dur : ℕ → ℚ) (t : ℚ) (s : SimState) :
    (startService dur t s).completed = s.completed := startService_completed dur t s

@[simp]
theorem startService_current_time_simp (dur : ℕ → ℚ) (t : ℚ) (s : SimState) :
    (startService dur t s).current_time = s.current_time := startService_current_time dur t s

@[simp]
theorem startService_next_id (dur : ℕ → ℚ) (t : ℚ) (s : SimState) :
    (startService dur t s).next_id = s.next_id := by
  cases hf : s.fastpass_queue with
  | cons c rest => simp [startService, hf, serveCustomer]
  | nil => cases hr : s.regular_queue <;> simp [startService, hf, hr, serveCustomer]

@[simp]
theorem processArrival_current_time (dur unif : ℕ → ℚ) (f : ℚ) (s : SimState) :
    (processArrival dur unif f s).current_time = s.current_time := by
  simp only [processArrival]
  split <;> split <;> simp

@[simp]
theorem processDeparture_current_time (dur : ℕ → ℚ) (w : ℚ) (c : Customer) (s : SimState) :
    (processDeparture dur w c s).current_time = s.current_time := by
  simp only [processDeparture]
  split <;> simp

/-! ### Lower bounds on pending event times -/

theorem serveCustomer_queue_lb (dur : ℕ → ℚ) (t b : ℚ) (c : Customer) (s : SimState)
    (hd : ∀ n, 0 ≤ dur n) (hb : b ≤ t) (h : ∀ x ∈ s.event_queue, b ≤ x.time) :
    ∀ x ∈ (serveCustomer dur t c s).event_queue, b ≤ x.time := by
  intro x hx
  simp only [serveCustomer] at hx
  rcases List.mem_append.mp hx with hx | hx
  · exact h x hx
  · rw [List.mem_singleton] at hx
    subst hx
    exact le_trans hb (le_add_of_nonneg_right (hd _))

theorem startService_queue_lb (dur : ℕ → ℚ) (t b : ℚ) (s : SimState)
    (hd : ∀ n, 0 ≤ dur n) (hb : b ≤ t) (h : ∀ x ∈ s.event_queue, b ≤ x.time) :
    ∀ x ∈ (startService dur t s).event_queue, b ≤ x.time := by
  cases hf : s.fastpass_queue with
  | cons c rest =>
    intro x hx
    rw [startService, hf] at hx
    exact serveCustomer_queue_lb dur t b c _ hd hb h x hx
  | nil =>
    cases hr : s.regular_queue with
    | cons c rest =>
      intro x hx
      rw [startService, hf, hr] at hx
      exact serveCustomer_queue_lb dur t b c _ hd hb h x hx
    | nil =>
      intro x hx
      rw [startService, hf, hr] at hx
      exact h x hx

theorem scheduleNextArrival_queue_lb (dur : ℕ → ℚ) (t b : ℚ) (s : SimState)
    (hd : ∀ n, 0 ≤ dur n) (hb : b ≤ t) (h : ∀ x ∈ s.event_queue, b ≤ x.time) :
    ∀ x ∈ (scheduleNextArrival dur t s).event_queue, b ≤ x.time := by
  intro x hx
  rw [scheduleNextArrival_event_queue] at hx
  rcases List.mem_append.mp hx with hx | hx
  · exact h x hx
  · rw [List.mem_singleton] at hx
    subst hx
    exact le_trans hb (le_add_of_nonneg_right (hd _))

theorem processArrival_queue_lb (dur unif : ℕ → ℚ) (f b : ℚ) (s : SimState)
    (hd : ∀ n, 0 ≤ dur n) (hb : b ≤ s.current_time)
    (h : ∀ x ∈ s.event_queue, b ≤ x.time) :
    ∀ x ∈ (processArrival dur unif f s).event_queue, b ≤ x.time := by
  simp only [processArrival]
  have hsched : ∀ (c : Customer) (s1 : SimState), s1.event_queue = s.event_queue →
      ∀ x ∈ (scheduleNextArrival dur s.current_time (arrivalEnqueue c s1)).event_queue,
        b ≤ x.time := by
    intro c s1 hq
    apply scheduleNextArrival_queue_lb dur _ b _ hd hb
    rw [arrivalEnqueue_event_queue, hq]
    exact h
  split <;> split <;>
    first
      | exact hsched _ _ rfl
      | exact startService_queue_lb dur _ b _ hd (by simp [hb]) (hsched _ _ rfl)

theorem processDeparture_queue_lb (dur : ℕ → ℚ) (w b : ℚ) (c : Customer) (s : SimState)
    (hd : ∀ n, 0 ≤ dur n) (hb : b ≤ s.current_time)
    (h : ∀ x ∈ s.event_queue, b ≤ x.time) :
    ∀ x ∈ (processDeparture dur w c s).event_queue, b ≤ x.time := by
  simp only [processDeparture]
  have hrec : ∀ x ∈ (recordDeparture w c s).event_queue, b ≤ x.time := by
    rw [recordDeparture_event_queue]
    exact h
  split
  · exact hrec
  · apply startService_queue_lb dur _ b _ hd _ hrec
    simp [hb]

/-- One processed event leaves the clock at the event's time and every
pending event no earlier than it. -/
theorem stepEvent_lb (dur unif : ℕ → ℚ) (f w : ℚ) (e : Event) (s s2 : SimState)
    (hd : ∀ n, 0 ≤ dur n)
    (hstep : stepEvent dur unif f w e s = some s2)
    (h : ∀ x ∈ s.event_queue, e.time ≤ x.time) :
    s2.current_time = e.time ∧ ∀ x ∈ s2.event_queue, e.time ≤ x.time := by
  obtain ⟨t, k, oc⟩ := e
  cases k with
  | arrival =>
    simp only [stepEvent] at hstep
    obtain rfl := Option.some.inj hstep
    refine ⟨by simp, ?_⟩
    exact processArrival_queue_lb dur unif f t _ hd (le_refl t) h
  | departure =>
    cases oc with
    | none => simp [stepEvent] at hstep
    | some c =>
      simp only [stepEvent] at hstep
      obtain rfl := Option.some.inj hstep
      refine ⟨by simp, ?_⟩
      exact processDeparture_queue_lb dur w t c _ hd (le_refl t) h

/-- Core invariant run lemma for ordering: if every pending event is no
earlier than the clock, the trace of popped times is a non-decreasing
chain, and every popped time is no earlier than the starting clock. -/
theorem runAux_trace_chain (dur unif : ℕ → ℚ) (f hor w : ℚ) (fuel : ℕ) (s : SimState)
    (hd : ∀ n, 0 ≤ dur n)
    (h : ∀ x ∈ s.event_queue, s.current_time ≤ x.time) :
    List.Chain' (fun a b => a ≤ b) (runAux dur unif f hor w fuel s).2 ∧
    ∀ t ∈ (runAux dur unif f hor w fuel s).2, s.current_time ≤ t := by
  induction fuel generalizing s with
  | zero => simp [runAux]
  | succ n ih =>
    by_cases hlt : s.current_time < hor
    · cases hq : popMin s.event_queue with
      | none => simp [runAux, hlt, hq]
      | some p =>
        obtain ⟨e, rest⟩ := p
        have hperm := popMin_perm _ _ _ hq
        have hmin := popMin_min _ _ _ hq
        have hct : s.current_time ≤ e.time := h e (popMin_mem _ _ _ hq)
        have hrest : ∀ x ∈ rest, e.time ≤ x.time := fun x hx =>
          hmin x (hperm.symm.subset (List.mem_cons_of_mem _ hx))
        cases hs : stepEvent dur unif f w e { s with event_queue := rest } with
        | none =>
          simp only [runAux, if_pos hlt, hq, hs]
          simp [hct]
        | some s2 =>
          obtain ⟨hct2, hq2⟩ := stepEvent_lb dur unif f w e _ s2 hd hs (by simpa using hrest)
          have ih2 := ih s2 (by rw [hct2]; exact hq2)
          simp only [runAux, if_pos hlt, hq, hs]
          constructor
          · apply List.chain'_cons'.mpr
            refine ⟨fun y hy => ?_, ih2.1⟩
            have hmem := List.mem_of_mem_head? hy
            have := ih2.2 y hmem
            rwa [hct2] at this
          · intro t ht
            rcases List.mem_cons.mp ht with rfl | ht
            · exact hct
            · have := ih2.2 t ht
              rw [hct2] at this
              exact le_trans hct this
    · simp [runAux, hlt]

/-- Claim C6: `popMin` (the heappop model) always returns a minimum-time
event among those pending, and across an entire run the sequence of popped
event times is non-decreasing (given non-negative sampled durations). -/
theorem scheduler_pop_min_and_monotone (dur unif : ℕ → ℚ) (f : ℚ) (fuel : ℕ)
    (hd : ∀ n, 0 ≤ dur n) :
    (∀ q e rest, popMin q = some (e, rest) →
      e ∈ q ∧ q.Perm (e :: rest) ∧ ∀ x ∈ q, e.time ≤ x.time) ∧
    List.Chain' (fun a b => a ≤ b) (runSim dur unif f fuel).2 := by
  constructor
  · intro q e rest hpop
    exact ⟨popMin_mem q e rest hpop, popMin_perm q e rest hpop, popMin_min q e rest hpop⟩
  · refine (runAux_trace_chain dur unif f SIMULATION_TIME WARM_UP_TIME fuel
      (initState dur) hd ?_).1
    intro x hx
    rw [initState] at hx
    simp only [List.mem_singleton] at hx
    subst hx
    exact hd 0

theorem scheduler_pop_min_and_monotone_witness :
    (∀ q e rest, popMin q = some (e, rest) →
      e ∈ q ∧ q.Perm (e :: rest) ∧ ∀ x ∈ q, e.time ≤ x.time) ∧
    List.Chain' (fun a b => a ≤ b)
      (runSim (fun _ => (1 : ℚ)) (fun _ => (1 : ℚ)/2) ((1 : ℚ)/2) 4).2 :=
  scheduler_pop_min_and_monotone (fun _ => 1) (fun _ => 1/2) (1/2) 4
    (fun n => by norm_num)

/-! ### Customer accounting -/

/-- The customers referenced by pending events (departure payloads). -/
def eventCustomers (q : List Event) : List Customer := q.filterMap Event.customer

/-- The customers waiting in either class queue. -/
def waiting (s : SimState) : List Customer := s.fastpass_queue ++ s.regular_queue

/-- Every customer currently tracked by the simulation: waiting, referenced
by a pending departure event, or already departed. -/
def allCustomers (s : SimState) : List Customer :=
  waiting s ++ eventCustomers s.event_queue ++ s.completed

/-- Number of customers of one class in a list. -/
def countClass (k : CType) (l : List Customer) : ℕ :=
  l.countP (fun c => c.ctype == k)

/-- Number of pending arrival events. -/
def arrivalCount (q : List Event) : ℕ :=
  q.countP (fun e => e.etype == EType.arrival)

/-- Whether a customer departed strictly after the warm-up horizon. -/
def postWarmB (w : ℚ) (c : Customer) : Bool :=
  match c.departure_time with
  | some d => decide (w < d)
  | none => false

/-- Departed customers of one class credited after warm-up. -/
def postWarmCount (w : ℚ) (k : CType) (l : List Customer) : ℕ :=
  l.countP (fun c => c.ctype == k && postWarmB w c)

/-- Departed customers of one class that fell inside the warm-up window. -/
def preWarmCount (w : ℚ) (k : CType) (l : List Customer) : ℕ :=
  l.countP (fun c => c.ctype == k && !postWarmB w c)

@[simp]
theorem eventCustomers_nil : eventCustomers [] = [] := rfl

@[simp]
theorem eventCustomers_append (a b : List Event) :
    eventCustomers (a ++ b) = eventCustomers a ++ eventCustomers b :=
  List.filterMap_append a b Event.customer

@[simp]
theorem eventCustomers_arrival (t : ℚ) :
    eventCustomers [⟨t, EType.arrival, none⟩] = [] := rfl

@[simp]
theorem eventCustomers_departure (t : ℚ) (c : Customer) :
    eventCustomers [⟨t, EType.departure, some c⟩] = [c] := rfl

theorem countP_split (p q : Customer → Bool) (l : List Customer) :
    l.countP p = l.countP (fun a => p a && q a) + l.countP (fun a => p a && !q a) := by
  induction l with
  | nil => rfl
  | cons a as ih =>
    cases hp : p a <;> cases hq : q a <;>
      simp [List.countP_cons, hp, hq, ih] <;> omega

/-! ### Permutation lemmas for the tracked-customer multiset -/

/-- Moving an element out of the middle of nested appends. -/
theorem middle_perm1 {α : Type} (a : α) (l1 l2 : List α) :
    (l1 ++ (a :: l2)).Perm (a :: (l1 ++ l2)) := List.perm_middle

/-- Moving an element out of the middle of nested appends, depth two. -/
theorem middle_perm2 {α : Type} (a : α) (l1 l2 l3 : List α) :
    (l1 ++ (l2 ++ (a :: l3))).Perm (a :: (l1 ++ (l2 ++ l3))) := by
  simpa [List.append_assoc] using @List.perm_middle α a (l1 ++ l2) l3

/-- Moving an element out of the middle of nested appends, depth three. -/
theorem middle_perm3 {α : Type} (a : α) (l1 l2 l3 l4 : List α) :
    (l1 ++ (l2 ++ (l3 ++ (a :: l4)))).Perm (a :: (l1 ++ (l2 ++ (l3 ++ l4)))) := by
  simpa [List.append_assoc] using @List.perm_middle α a (l1 ++ (l2 ++ l3)) l4

/-- Moving the last element to the front through nested appends. -/
theorem middle_perm4 {α : Type} (a : α) (l1 l2 l3 l4 : List α) :
    (l1 ++ (l2 ++ (l3 ++ (l4 ++ [a])))).Perm (a :: (l1 ++ (l2 ++ (l3 ++ l4)))) := by
  simpa [List.append_assoc, List.append_nil] using
    @List.perm_middle α a (l1 ++ (l2 ++ (l3 ++ l4))) []

theorem serveCustomer_all_perm (dur : ℕ → ℚ) (t : ℚ) (c : Customer) (s : SimState) :
    (allCustomers (serveCustomer dur t c s)).Perm (c :: allCustomers s) := by
  simp only [allCustomers, waiting, serveCustomer, eventCustomers_append,
    eventCustomers_departure, List.append_assoc]
  exact middle_perm3 c s.fastpass_queue s.regular_queue (eventCustomers s.event_queue)
    s.completed

theorem startService_all_perm (dur : ℕ → ℚ) (t : ℚ) (s : SimState) :
    (allCustomers (startService dur t s)).Perm (allCustomers s) := by
  cases hf : s.fastpass_queue with
  | cons c rest =>
    rw [startService, hf]
    refine (serveCustomer_all_perm dur t c _).trans ?_
    simp only [allCustomers, waiting, hf, List.cons_append, List.append_assoc]
    exact List.Perm.refl _
  | nil =>
    cases hr : s.regular_queue with
    | cons c rest =>
      rw [startService, hf, hr]
      refine (serveCustomer_all_perm dur t c _).trans ?_
      simp only [allCustomers, waiting, hf, hr, List.cons_append, List.nil_append,
        List.append_assoc]
      refine (List.Perm.refl _).cons c |>.trans ?_
      exact List.Perm.refl _
    | nil =>
      rw [startService, hf, hr]

theorem arrivalEnqueue_all_perm (c : Customer) (s : SimState) :
    (allCustomers (arrivalEnqueue c s)).Perm (c :: allCustomers s) := by
  unfold arrivalEnqueue
  split
  · simp only [allCustomers, waiting, List.append_assoc]
    exact middle_perm1 c s.fastpass_queue
      (s.regular_queue ++ (eventCustomers s.event_queue ++ s.completed))
  · simp only [allCustomers, waiting, List.append_assoc]
    exact middle_perm2 c s.fastpass_queue s.regular_queue
      (eventCustomers s.event_queue ++ s.completed)

@[simp]
theorem scheduleNextArrival_all (dur : ℕ → ℚ) (t : ℚ) (s : SimState) :
    allCustomers (scheduleNextArrival dur t s) = allCustomers s := by
  simp [allCustomers, waiting, List.append_assoc]

theorem recordDeparture_all_perm (w : ℚ) (c : Customer) (s : SimState) :
    (allCustomers (recordDeparture w c s)).Perm
      ({ c with departure_time := some s.current_time } :: allCustomers s) := by
  simp only [allCustomers, waiting]
  rw [recordDeparture_fastpass_queue, recordDeparture_regular_queue,
    recordDeparture_event_queue, recordDeparture_completed]
  simp only [List.append_assoc]
  exact middle_perm4 _ s.fastpass_queue s.regular_queue (eventCustomers s.event_queue)
    s.completed

@[simp]
theorem beq_arr_arr : (EType.arrival == EType.arrival) = true := rfl

@[simp]
theorem beq_dep_arr : (EType.departure == EType.arrival) = false := rfl

theorem countClass_cons (k : CType) (c : Customer) (l : List Customer) :
    countClass k (c :: l) = countClass k l + (if c.ctype = k then 1 else 0) := by
  by_cases h : c.ctype = k <;> simp [countClass, List.countP_cons, h]

theorem countClass_append (k : CType) (a b : List Customer) :
    countClass k (a ++ b) = countClass k a + countClass k b :=
  List.countP_append _ a b

theorem arrivalCount_append (a b : List Event) :
    arrivalCount (a ++ b) = arrivalCount a + arrivalCount b :=
  List.countP_append _ a b

@[simp]
theorem arrivalCount_dep (t : ℚ) (oc : Option Customer) :
    arrivalCount [⟨t, EType.departure, oc⟩] = 0 := rfl

@[simp]
theorem arrivalCount_arr (t : ℚ) (oc : Option Customer) :
    arrivalCount [⟨t, EType.arrival, oc⟩] = 1 := rfl

theorem startService_arrivalCount (dur : ℕ → ℚ) (t : ℚ) (s : SimState) :
    arrivalCount (startService dur t s).event_queue = arrivalCount s.event_queue := by
  cases hf : s.fastpass_queue with
  | cons c rest => simp [startService, hf, serveCustomer, arrivalCount_append]
  | nil =>
    cases hr : s.regular_queue <;>
      simp [startService, hf, hr, serveCustomer, arrivalCount_append]

theorem processArrival_arrivalCount (dur unif : ℕ → ℚ) (f : ℚ) (s : SimState) :
    arrivalCount (processArrival dur unif f s).event_queue =
      arrivalCount s.event_queue + 1 := by
  simp only [processArrival]
  split <;> split <;>
    simp [startService_arrivalCount, scheduleNextArrival, arrivalCount_append]

theorem processDeparture_arrivalCount (dur : ℕ → ℚ) (w : ℚ) (c : Customer) (s : SimState) :
    arrivalCount (processDeparture dur w c s).event_queue =
      arrivalCount s.event_queue := by
  simp only [processDeparture]
  split <;> simp [startService_arrivalCount]

/-- Arrival events never carry a customer payload. -/
def ArrNone (q : List Event) : Prop :=
  ∀ e ∈ q, e.etype = EType.arrival → e.customer = none

theorem serveCustomer_arr_none (dur : ℕ → ℚ) (t : ℚ) (c : Customer) (s : SimState)
    (h : ArrNone s.event_queue) : ArrNone (serveCustomer dur t c s).event_queue := by
  intro e he harr
  simp only [serveCustomer] at he
  rcases List.mem_append.mp he with he | he
  · exact h e he harr
  · rw [List.mem_singleton] at he
    subst he
    cases harr

theorem startService_arr_none (dur : ℕ → ℚ) (t : ℚ) (s : SimState)
    (h : ArrNone s.event_queue) : ArrNone (startService dur t s).event_queue := by
  cases hf : s.fastpass_queue with
  | cons c rest =>
    rw [startService, hf]
    exact serveCustomer_arr_none dur t c _ h
  | nil =>
    cases hr : s.regular_queue with
    | cons c rest =>
      rw [startService, hf, hr]
      exact serveCustomer_arr_none dur t c _ h
    | nil =>
      rw [startService, hf, hr]
      exact h

theorem scheduleNextArrival_arr_none (dur : ℕ → ℚ) (t : ℚ) (s : SimState)
    (h : ArrNone s.event_queue) : ArrNone (scheduleNextArrival dur t s).event_queue := by
  intro e he harr
  rw [scheduleNextArrival_event_queue] at he
  rcases List.mem_append.mp he with he | he
  · exact h e he harr
  · rw [List.mem_singleton] at he
    subst he
    rfl

theorem processArrival_arr_none (dur unif : ℕ → ℚ) (f : ℚ) (s : SimState)
    (h : ArrNone s.event_queue) : ArrNone (processArrival dur unif f s).event_queue := by
  simp only [processArrival]
  have hsched : ∀ (c : Customer) (s1 : SimState), s1.event_queue = s.event_queue →
      ArrNone (scheduleNextArrival dur s.current_time (arrivalEnqueue c s1)).event_queue := by
    intro c s1 hq
    apply scheduleNextArrival_arr_none
    rw [arrivalEnqueue_event_queue, hq]
    exact h
  split <;> split <;>
    first
      | exact hsched _ _ rfl
      | exact startService_arr_none dur _ _ (hsched _ _ rfl)

theorem processDeparture_arr_none (dur : ℕ → ℚ) (w : ℚ) (c : Customer) (s : SimState)
    (h : ArrNone s.event_queue) : ArrNone (processDeparture dur w c s).event_queue := by
  simp only [processDeparture]
  have hrec : ArrNone (recordDeparture w c s).event_queue := by
    rw [recordDeparture_event_queue]
    exact h
  split
  · exact hrec
  · exact startService_arr_none dur _ _ hrec

theorem processArrival_stats (dur unif : ℕ → ℚ) (f : ℚ) (s : SimState) :
    (processArrival dur unif f s).stats =
      s.stats.upd (if unif s.unif_idx < f then CType.fastpass else CType.regular)
        (fun cs => { cs with total_customers := cs.total_customers + 1 }) := by
  simp only [processArrival]
  split <;> split <;> simp

theorem processArrival_completed (dur unif : ℕ → ℚ) (f : ℚ) (s : SimState) :
    (processArrival dur unif f s).completed = s.completed := by
  simp only [processArrival]
  split <;> split <;> simp

theorem processDeparture_completed (dur : ℕ → ℚ) (w : ℚ) (c : Customer) (s : SimState) :
    (processDeparture dur w c s).completed =
      s.completed ++ [{ c with departure_time := some s.current_time }] := by
  simp only [processDeparture]
  split <;> simp

theorem processArrival_all_perm (dur unif : ℕ → ℚ) (f : ℚ) (s : SimState) :
    (allCustomers (processArrival dur unif f s)).Perm
      ((⟨s.next_id, if unif s.unif_idx < f then CType.fastpass else CType.regular,
        s.current_time, none⟩ : Customer) :: allCustomers s) := by
  simp only [processArrival]
  split <;> split <;>
    first
      | exact (by rw [scheduleNextArrival_all]; exact arrivalEnqueue_all_perm _ _)
      | exact (startService_all_perm _ _ _).trans
          (by rw [scheduleNextArrival_all]; exact arrivalEnqueue_all_perm _ _)

theorem processDeparture_all_perm (dur : ℕ → ℚ) (w : ℚ) (c : Customer) (s : SimState) :
    (allCustomers (processDeparture dur w c s)).Perm
      ({ c with departure_time := some s.current_time } :: allCustomers s) := by
  simp only [processDeparture]
  split
  · exact recordDeparture_all_perm w c s
  · refine (startService_all_perm _ _ _).trans ?_
    exact recordDeparture_all_perm w c s

theorem arrivalCount_perm {q r : List Event} (h : q.Perm r) :
    arrivalCount q = arrivalCount r := h.countP_eq _

theorem countClass_perm (k : CType) {l r : List Customer} (h : l.Perm r) :
    countClass k l = countClass k r := h.countP_eq _

theorem stats_upd_total_total (st : Stats) (ct k : CType) :
    ((st.upd ct (fun cs =>
        { cs with total_customers := cs.total_customers + 1 })).get k).total_customers
      = (st.get k).total_customers + (if ct = k then 1 else 0) := by
  cases ct <;> cases k <;> simp [Stats.get, Stats.upd]

theorem stats_upd_total_completed (st : Stats) (ct k : CType) :
    ((st.upd ct (fun cs =>
        { cs with total_customers := cs.total_customers + 1 })).get k).completed_customers
      = (st.get k).completed_customers := by
  cases ct <;> cases k <;> simp [Stats.get, Stats.upd]

theorem processDeparture_stats_total (dur : ℕ → ℚ) (w : ℚ) (c : Customer) (s : SimState)
    (k : CType) :
    ((processDeparture dur w c s).stats.get k).total_customers
      = (s.stats.get k).total_customers := by
  rw [processDeparture_stats_eq]
  split
  · cases hc : c.ctype <;> cases k <;> simp [Stats.get, Stats.upd]
  · rfl

theorem processDeparture_stats_completed (dur : ℕ → ℚ) (w : ℚ) (c : Customer)
    (s : SimState) (k : CType) :
    ((processDeparture dur w c s).stats.get k).completed_customers
      = (s.stats.get k).completed_customers
        + (if c.ctype = k ∧ w < s.current_time then 1 else 0) := by
  rw [processDeparture_stats_eq]
  by_cases hw : w < s.current_time
  · rw [if_pos hw]
    by_cases hc : c.ctype = k
    · subst hc
      rw [Stats.get_upd_same]
      simp [hw]
    · rw [Stats.get_upd_ne _ _ _ _ (fun h => hc h.symm)]
      simp [hc]
  · rw [if_neg hw]
    simp [hw]

@[simp]
theorem postWarmB_set (w : ℚ) (c : Customer) (d : ℚ) :
    postWarmB w { c with departure_time := some d } = decide (w < d) := rfl

theorem postWarmCount_append_single (w : ℚ) (k : CType) (l : List Customer)
    (c : Customer) :
    postWarmCount w k (l ++ [c]) =
      postWarmCount w k l + (if c.ctype = k ∧ postWarmB w c = true then 1 else 0) := by
  by_cases h1 : c.ctype = k <;> by_cases h2 : postWarmB w c = true <;>
    simp [postWarmCount, List.countP_append, List.countP_cons, h1, h2]

/-- Structural run invariant: exactly one pending arrival event, arrival
events carry no payload, per-class totals count every tracked customer,
and per-class completed counts are the post-warm-up departures. -/
structure SInv (w : ℚ) (s : SimState) : Prop where
  arr_one : arrivalCount s.event_queue = 1
  arr_none : ArrNone s.event_queue
  total_eq : ∀ k, (s.stats.get k).total_customers = countClass k (allCustomers s)
  comp_eq : ∀ k, (s.stats.get k).completed_customers = postWarmCount w k s.completed

theorem sinv_init (dur : ℕ → ℚ) (w : ℚ) : SInv w (initState dur) := by
  refine ⟨rfl, ?_, ?_, ?_⟩
  · intro e he harr
    rw [initState] at he
    rw [List.mem_singleton] at he
    subst he
    rfl
  · intro k
    cases k <;> rfl
  · intro k
    cases k <;> rfl

theorem sinv_step (dur unif : ℕ → ℚ) (f w : ℚ) (e : Event) (rest : List Event)
    (s s2 : SimState)
    (hpop : popMin s.event_queue = some (e, rest))
    (hinv : SInv w s)
    (hstep : stepEvent dur unif f w e { s with event_queue := rest } = some s2) :
    SInv w s2 := by
  have hperm := popMin_perm _ _ _ hpop
  have hAN : ArrNone rest := fun e2 he harr2 =>
    hinv.arr_none e2 (hperm.symm.subset (List.mem_cons_of_mem _ he)) harr2
  obtain ⟨t, k0, oc⟩ := e
  cases k0 with
  | arrival =>
    have hnone : oc = none := hinv.arr_none _ (popMin_mem _ _ _ hpop) rfl
    subst hnone
    simp only [stepEvent] at hstep
    obtain rfl := Option.some.inj hstep
    have hq1 : arrivalCount rest = 0 := by
      have h2 := hinv.arr_one
      rw [arrivalCount_perm hperm] at h2
      simp [arrivalCount, List.countP_cons] at h2
      rw [arrivalCount, List.countP_eq_zero]
      intro a ha
      simpa using h2 a ha
    have hev : (eventCustomers s.event_queue).Perm (eventCustomers rest) := by
      have h3 := hperm.filterMap Event.customer
      simpa [eventCustomers, List.filterMap_cons] using h3
    have hall : ∀ k, countClass k (allCustomers s) =
        countClass k (allCustomers { s with event_queue := rest, current_time := t }) := by
      intro k
      simp only [allCustomers, waiting, countClass_append]
      rw [countClass_perm k hev]
    refine ⟨?_, ?_, ?_, ?_⟩
    · rw [processArrival_arrivalCount]
      simp [hq1]
    · exact processArrival_arr_none _ _ _ _ hAN
    · intro k
      have hstats := processArrival_stats dur unif f
        { s with event_queue := rest, current_time := t }
      have hcc := countClass_perm k (processArrival_all_perm dur unif f
        { s with event_queue := rest, current_time := t })
      rw [hstats, stats_upd_total_total, hcc, countClass_cons]
      have h4 := hinv.total_eq k
      rw [hall k] at h4
      simp only [h4]
    · intro k
      rw [processArrival_completed, processArrival_stats, stats_upd_total_completed]
      exact hinv.comp_eq k
  | departure =>
    cases oc with
    | none => simp [stepEvent] at hstep
    | some c =>
      simp only [stepEvent] at hstep
      obtain rfl := Option.some.inj hstep
      have hq1 : arrivalCount rest = 1 := by
        have h2 := hinv.arr_one
        rw [arrivalCount_perm hperm] at h2
        simpa [arrivalCount, List.countP_cons] using h2
      have hev : (eventCustomers s.event_queue).Perm (c :: eventCustomers rest) := by
        have h3 := hperm.filterMap Event.customer
        simpa [eventCustomers, List.filterMap_cons] using h3
      have hall : ∀ k, countClass k (allCustomers s) =
          countClass k (allCustomers { s with event_queue := rest, current_time := t })
            + (if c.ctype = k then 1 else 0) := by
        intro k
        simp only [allCustomers, waiting, countClass_append]
        rw [countClass_perm k hev, countClass_cons]
        omega
      refine ⟨?_, ?_, ?_, ?_⟩
      · rw [processDeparture_arrivalCount]
        simpa using hq1
      · exact processDeparture_arr_none _ _ _ _ hAN
      · intro k
        rw [processDeparture_stats_total]
        have hcc := countClass_perm k (processDeparture_all_perm dur w c
          { s with event_queue := rest, current_time := t })
        rw [hcc, countClass_cons]
        have h4 := hinv.total_eq k
        rw [hall k] at h4
        simpa using h4
      · intro k
        rw [processDeparture_stats_completed, processDeparture_completed,
          postWarmCount_append_single]
        have h5 := hinv.comp_eq k
        simp only [postWarmB_set, decide_eq_true_eq]
        simp only [h5]
theorem sinv_crash (dur unif : ℕ → ℚ) (f w : ℚ) (e : Event) (rest : List Event)
    (s : SimState)
    (hpop : popMin s.event_queue = some (e, rest))
    (hinv : SInv w s)
    (hstep : stepEvent dur unif f w e { s with event_queue := rest } = none) :
    SInv w { s with event_queue := rest, current_time := e.time } := by
  have hperm := popMin_perm _ _ _ hpop
  have hAN : ArrNone rest := fun e2 he harr2 =>
    hinv.arr_none e2 (hperm.symm.subset (List.mem_cons_of_mem _ he)) harr2
  obtain ⟨t, k0, oc⟩ := e
  cases k0 with
  | arrival => simp [stepEvent] at hstep
  | departure =>
    cases oc with
    | some c => simp [stepEvent] at hstep
    | none =>
      have hq1 : arrivalCount rest = 1 := by
        have h2 := hinv.arr_one
        rw [arrivalCount_perm hperm] at h2
        simpa [arrivalCount, List.countP_cons] using h2
      have hev : (eventCustomers s.event_queue).Perm (eventCustomers rest) := by
        have h3 := hperm.filterMap Event.customer
        simpa [eventCustomers, List.filterMap_cons] using h3
      refine ⟨hq1, hAN, ?_, hinv.comp_eq⟩
      intro k
      have h4 := hinv.total_eq k
      simp only [allCustomers, waiting, countClass_append] at h4 ⊢
      rw [countClass_perm k hev] at h4
      exact h4

theorem sinv_run (dur unif : ℕ → ℚ) (f hor w : ℚ) (fuel : ℕ) (s : SimState)
    (hinv : SInv w s) : SInv w (runAux dur unif f hor w fuel s).1 := by
  induction fuel generalizing s with
  | zero => simpa [runAux] using hinv
  | succ n ih =>
    by_cases hlt : s.current_time < hor
    · cases hq : popMin s.event_queue with
      | none =>
        simp only [runAux, if_pos hlt, hq]
        exact hinv
      | some p =>
        obtain ⟨e, rest⟩ := p
        cases hs : stepEvent dur unif f w e { s with event_queue := rest } with
        | none =>
          simp only [runAux, if_pos hlt, hq, hs]
          exact sinv_crash dur unif f w e rest s hq hinv hs
        | some s2 =>
          simp only [runAux, if_pos hlt, hq, hs]
          exact ih s2 (sinv_step dur unif f w e rest s s2 hq hinv hs)
    · simp only [runAux, if_neg hlt]
      exact hinv

/-- Claim C10: throughout every run the event queue holds exactly one
pending arrival event (each processed arrival schedules exactly one
successor), so the queue is never empty and the loop can stop only through
the time horizon; for each class `completedAfterWarmup ≤ totalArrived`,
with the total fully accounted for by customers still waiting, customers
referenced by pending departure events (in service), pre-warm-up
completions, and post-warm-up completions. -/
theorem arrival_alive_and_conservation (dur unif : ℕ → ℚ) (f : ℚ) (fuel : ℕ) :
    arrivalCount (runSim dur unif f fuel).1.event_queue = 1 ∧
    (runSim dur unif f fuel).1.event_queue ≠ [] ∧
    (∀ k, (((runSim dur unif f fuel).1.stats.get k).completed_customers : ℕ)
        ≤ ((runSim dur unif f fuel).1.stats.get k).total_customers) ∧
    (∀ k, (((runSim dur unif f fuel).1.stats.get k).total_customers : ℕ)
        = countClass k (waiting (runSim dur unif f fuel).1)
          + countClass k (eventCustomers (runSim dur unif f fuel).1.event_queue)
          + preWarmCount WARM_UP_TIME k (runSim dur unif f fuel).1.completed
          + ((runSim dur unif f fuel).1.stats.get k).completed_customers) := by
  have hinv : SInv WARM_UP_TIME (runSim dur unif f fuel).1 :=
    sinv_run dur unif f SIMULATION_TIME WARM_UP_TIME fuel (initState dur)
      (sinv_init dur WARM_UP_TIME)
  have hacct : ∀ k, (((runSim dur unif f fuel).1.stats.get k).total_customers : ℕ)
      = countClass k (waiting (runSim dur unif f fuel).1)
        + countClass k (eventCustomers (runSim dur unif f fuel).1.event_queue)
        + preWarmCount WARM_UP_TIME k (runSim dur unif f fuel).1.completed
        + ((runSim dur unif f fuel).1.stats.get k).completed_customers := by
    intro k
    have h1 := hinv.total_eq k
    have h2 := hinv.comp_eq k
    have h3 : countClass k (runSim dur unif f fuel).1.completed
        = postWarmCount WARM_UP_TIME k (runSim dur unif f fuel).1.completed
          + preWarmCount WARM_UP_TIME k (runSim dur unif f fuel).1.completed :=
      countP_split _ _ _
    rw [h1]
    simp only [allCustomers, countClass_append]
    rw [h3, ← h2]
    omega
  refine ⟨hinv.arr_one, ?_, ?_, hacct⟩
  · intro hempty
    have h2 := hinv.arr_one
    rw [hempty] at h2
    simp [arrivalCount] at h2
  · intro k
    have := hacct k
    omega

/-! ### Departure-time invariant: causality and single assignment -/

/-- The identities of every tracked customer. -/
def allIds (s : SimState) : List ℕ := (allCustomers s).map Customer.id

/-- Run invariant for causality: pending events are never in the past,
waiting customers arrived in the past and have no departure time, pending
departure payloads have no departure time yet and depart strictly after
their arrival, completed customers departed strictly after arriving, and
customer identities are fresh and pairwise distinct. -/
structure PInv (s : SimState) : Prop where
  qlb : ∀ x ∈ s.event_queue, s.current_time ≤ x.time
  wnone : ∀ c ∈ waiting s, c.departure_time = none
  warr : ∀ c ∈ waiting s, c.arrival_time ≤ s.current_time
  dnone : ∀ e ∈ s.event_queue, ∀ c, e.customer = some c → c.departure_time = none
  darr : ∀ e ∈ s.event_queue, ∀ c, e.customer = some c → c.arrival_time < e.time
  cdep : ∀ c ∈ s.completed, ∃ d, c.departure_time = some d ∧ c.arrival_time < d
  idlt : ∀ c ∈ allCustomers s, c.id < s.next_id
  idnd : (allIds s).Nodup

theorem serveCustomer_pinv (dur : ℕ → ℚ) (t : ℚ) (c : Customer) (s : SimState)
    (hd : ∀ n, 0 < dur n) (ht : t = s.current_time) (h : PInv s)
    (hcdep : c.departure_time = none) (hcarr : c.arrival_time ≤ s.current_time)
    (hcid : c.id < s.next_id) (hcnot : c.id ∉ allIds s) :
    PInv (serveCustomer dur t c s) := by
  subst ht
  have hall := serveCustomer_all_perm dur s.current_time c s
  refine ⟨?_, ?_, ?_, ?_, ?_, ?_, ?_, ?_⟩
  · intro x hx
    simp only [serveCustomer] at hx ⊢
    rcases List.mem_append.mp hx with hx | hx
    · exact h.qlb x hx
    · rw [List.mem_singleton] at hx
      subst hx
      exact le_add_of_nonneg_right (le_of_lt (hd _))
  · intro c2 hc2
    exact h.wnone c2 hc2
  · intro c2 hc2
    exact h.warr c2 hc2
  · intro e he c2 hc2
    simp only [serveCustomer] at he
    rcases List.mem_append.mp he with he | he
    · exact h.dnone e he c2 hc2
    · rw [List.mem_singleton] at he
      subst he
      obtain rfl := Option.some.inj hc2
      exact hcdep
  · intro e he c2 hc2
    simp only [serveCustomer] at he
    rcases List.mem_append.mp he with he | he
    · exact h.darr e he c2 hc2
    · rw [List.mem_singleton] at he
      subst he
      obtain rfl := Option.some.inj hc2
      exact lt_of_le_of_lt hcarr (lt_add_of_pos_right _ (hd _))
  · intro c2 hc2
    exact h.cdep c2 hc2
  · intro c2 hc2
    have := hall.subset hc2
    rcases List.mem_cons.mp this with rfl | hmem
    · exact hcid
    · exact h.idlt c2 hmem
  · have hmap := (hall.map Customer.id).symm
    refine hmap.nodup ?_
    exact List.nodup_cons.mpr ⟨hcnot, h.idnd⟩

theorem startService_pinv (dur : ℕ → ℚ) (t : ℚ) (s : SimState)
    (hd : ∀ n, 0 < dur n) (ht : t = s.current_time) (h : PInv s) :
    PInv (startService dur t s) := by
  subst ht
  cases hf : s.fastpass_queue with
  | cons c rest =>
    rw [startService, hf]
    have hcw : c ∈ waiting s := by
      rw [waiting, hf]
      exact List.mem_append.mpr (Or.inl (List.mem_cons_self c rest))
    have hALL : allCustomers s = c :: allCustomers { s with fastpass_queue := rest } := by
      simp [allCustomers, waiting, hf]
    have hPs : PInv { s with fastpass_queue := rest } := by
      refine ⟨h.qlb, ?_, ?_, h.dnone, h.darr, h.cdep, ?_, ?_⟩
      · intro c2 hc2
        refine h.wnone c2 ?_
        rw [waiting, hf]
        rw [waiting] at hc2
        rcases List.mem_append.mp hc2 with hx | hx
        · exact List.mem_append.mpr (Or.inl (List.mem_cons_of_mem _ hx))
        · exact List.mem_append.mpr (Or.inr hx)
      · intro c2 hc2
        refine h.warr c2 ?_
        rw [waiting, hf]
        rw [waiting] at hc2
        rcases List.mem_append.mp hc2 with hx | hx
        · exact List.mem_append.mpr (Or.inl (List.mem_cons_of_mem _ hx))
        · exact List.mem_append.mpr (Or.inr hx)
      · intro c2 hc2
        refine h.idlt c2 ?_
        rw [hALL]
        exact List.mem_cons_of_mem _ hc2
      · have := h.idnd
        rw [allIds, hALL] at this
        exact (List.nodup_cons.mp this).2
    refine serveCustomer_pinv dur _ c _ hd (by simp) hPs
      (h.wnone c hcw) (h.warr c hcw) (h.idlt c (by rw [hALL]; exact List.mem_cons_self _ _))
      ?_
    have := h.idnd
    rw [allIds, hALL] at this
    exact (List.nodup_cons.mp this).1
  | nil =>
    cases hr : s.regular_queue with
    | cons c rest =>
      rw [startService, hf, hr]
      have hcw : c ∈ waiting s := by
        rw [waiting, hr]
        exact List.mem_append.mpr (Or.inr (List.mem_cons_self c rest))
      have hALL : allCustomers s =
          c :: allCustomers { s with fastpass_queue := [], regular_queue := rest } := by
        simp [allCustomers, waiting, hf, hr]
      have hmem : ∀ c2, c2 ∈ waiting { s with
          fastpass_queue := ([] : List Customer)
          regular_queue := rest } → c2 ∈ waiting s := by
        intro c2 hc2
        rw [waiting] at hc2
        rw [List.nil_append] at hc2
        rw [waiting, hf, hr, List.nil_append]
        exact List.mem_cons_of_mem _ hc2
      have hPs : PInv { s with fastpass_queue := [], regular_queue := rest } := by
        refine ⟨h.qlb, ?_, ?_, h.dnone, h.darr, h.cdep, ?_, ?_⟩
        · intro c2 hc2
          exact h.wnone c2 (hmem c2 hc2)
        · intro c2 hc2
          exact h.warr c2 (hmem c2 hc2)
        · intro c2 hc2
          refine h.idlt c2 ?_
          rw [hALL]
          exact List.mem_cons_of_mem _ hc2
        · have := h.idnd
          rw [allIds, hALL] at this
          exact (List.nodup_cons.mp this).2
      refine serveCustomer_pinv dur _ c _ hd (by simp) hPs
        (h.wnone c hcw) (h.warr c hcw)
        (h.idlt c (by rw [hALL]; exact List.mem_cons_self _ _)) ?_
      have := h.idnd
      rw [allIds, hALL] at this
      exact (List.nodup_cons.mp this).1
    | nil =>
      rw [startService, hf, hr]
      exact h

theorem scheduleNextArrival_pinv (dur : ℕ → ℚ) (t : ℚ) (s : SimState)
    (hd : ∀ n, 0 < dur n) (ht : t = s.current_time) (h : PInv s) :
    PInv (scheduleNextArrival dur t s) := by
  subst ht
  refine ⟨?_, h.wnone, h.warr, ?_, ?_, h.cdep, ?_, ?_⟩
  · intro x hx
    rw [scheduleNextArrival_event_queue] at hx
    rcases List.mem_append.mp hx with hx | hx
    · exact h.qlb x hx
    · rw [List.mem_singleton] at hx
      subst hx
      exact le_add_of_nonneg_right (le_of_lt (hd _))
  · intro e he c hc
    rw [scheduleNextArrival_event_queue] at he
    rcases List.mem_append.mp he with he | he
    · exact h.dnone e he c hc
    · rw [List.mem_singleton] at he
      subst he
      simp at hc
  · intro e he c hc
    rw [scheduleNextArrival_event_queue] at he
    rcases List.mem_append.mp he with he | he
    · exact h.darr e he c hc
    · rw [List.mem_singleton] at he
      subst he
      simp at hc
  · intro c hc
    rw [scheduleNextArrival_all] at hc
    exact h.idlt c hc
  · rw [allIds, scheduleNextArrival_all]
    exact h.idnd

theorem arrivalEnqueue_pinv (c : Customer) (s : SimState) (h : PInv s)
    (hcdep : c.departure_time = none) (hcarr : c.arrival_time ≤ s.current_time)
    (hcid : c.id < s.next_id) (hcnot : c.id ∉ allIds s) :
    PInv (arrivalEnqueue c s) := by
  have hwmem : ∀ c2 ∈ waiting (arrivalEnqueue c s), c2 = c ∨ c2 ∈ waiting s := by
    intro c2 hc2
    unfold arrivalEnqueue at hc2
    split at hc2 <;> simp [waiting] at hc2 ⊢ <;> tauto
  have hall := arrivalEnqueue_all_perm c s
  refine ⟨?_, ?_, ?_, ?_, ?_, ?_, ?_, ?_⟩
  · intro x hx
    rw [arrivalEnqueue_event_queue] at hx
    rw [arrivalEnqueue_current_time]
    exact h.qlb x hx
  · intro c2 hc2
    rcases hwmem c2 hc2 with rfl | hc2
    · exact hcdep
    · exact h.wnone c2 hc2
  · intro c2 hc2
    rw [arrivalEnqueue_current_time]
    rcases hwmem c2 hc2 with rfl | hc2
    · exact hcarr
    · exact h.warr c2 hc2
  · intro e he c2 hc2
    rw [arrivalEnqueue_event_queue] at he
    exact h.dnone e he c2 hc2
  · intro e he c2 hc2
    rw [arrivalEnqueue_event_queue] at he
    exact h.darr e he c2 hc2
  · intro c2 hc2
    rw [arrivalEnqueue_completed] at hc2
    exact h.cdep c2 hc2
  · intro c2 hc2
    rw [arrivalEnqueue_next_id]
    rcases List.mem_cons.mp (hall.subset hc2) with rfl | hc2
    · exact hcid
    · exact h.idlt c2 hc2
  · refine ((hall.map Customer.id).symm).nodup ?_
    exact List.nodup_cons.mpr ⟨hcnot, h.idnd⟩

theorem recordDeparture_pinv (w : ℚ) (c : Customer) (s : SimState) (h : PInv s)
    (harr : c.arrival_time < s.current_time) (hcid : c.id < s.next_id)
    (hcnot : c.id ∉ allIds s) : PInv (recordDeparture w c s) := by
  have hall := recordDeparture_all_perm w c s
  refine ⟨?_, ?_, ?_, ?_, ?_, ?_, ?_, ?_⟩
  · intro x hx
    rw [recordDeparture_event_queue] at hx
    rw [recordDeparture_current_time]
    exact h.qlb x hx
  · intro c2 hc2
    refine h.wnone c2 ?_
    rw [waiting] at hc2 ⊢
    rwa [recordDeparture_fastpass_queue, recordDeparture_regular_queue] at hc2
  · intro c2 hc2
    rw [recordDeparture_current_time]
    refine h.warr c2 ?_
    rw [waiting] at hc2 ⊢
    rwa [recordDeparture_fastpass_queue, recordDeparture_regular_queue] at hc2
  · intro e he c2 hc2
    rw [recordDeparture_event_queue] at he
    exact h.dnone e he c2 hc2
  · intro e he c2 hc2
    rw [recordDeparture_event_queue] at he
    exact h.darr e he c2 hc2
  · intro c2 hc2
    rw [recordDeparture_completed] at hc2
    rcases List.mem_append.mp hc2 with hc2 | hc2
    · exact h.cdep c2 hc2
    · rw [List.mem_singleton] at hc2
      subst hc2
      exact ⟨s.current_time, rfl, harr⟩
  · intro c2 hc2
    rw [recordDeparture_next_id]
    rcases List.mem_cons.mp (hall.subset hc2) with rfl | hc2
    · exact hcid
    · exact h.idlt c2 hc2
  · refine ((hall.map Customer.id).symm).nodup ?_
    exact List.nodup_cons.mpr ⟨hcnot, h.idnd⟩

theorem processArrival_pinv (dur unif : ℕ → ℚ) (f : ℚ) (s : SimState)
    (hd : ∀ n, 0 < dur n) (h : PInv s) : PInv (processArrival dur unif f s) := by
  simp only [processArrival]
  generalize (if unif s.unif_idx < f then CType.fastpass else CType.regular) = ct
  have h1 : PInv { s with
      unif_idx := s.unif_idx + 1
      next_id := s.next_id + 1
      stats := s.stats.upd ct
        (fun cs => { cs with total_customers := cs.total_customers + 1 }) } := by
    refine ⟨h.qlb, h.wnone, h.warr, h.dnone, h.darr, h.cdep, ?_, h.idnd⟩
    intro c2 hc2
    exact lt_trans (h.idlt c2 hc2) (Nat.lt_succ_self _)
  have hnot : s.next_id ∉ allIds { s with
      unif_idx := s.unif_idx + 1
      next_id := s.next_id + 1
      stats := s.stats.upd ct
        (fun cs => { cs with total_customers := cs.total_customers + 1 }) } := by
    intro hmem
    obtain ⟨c2, hc2, hid⟩ := List.mem_map.mp hmem
    exact absurd (h.idlt c2 hc2) (by rw [hid]; exact lt_irrefl _)
  have h2 := arrivalEnqueue_pinv ⟨s.next_id, ct, s.current_time, none⟩ _ h1 rfl
    (le_refl _) (Nat.lt_succ_self _) hnot
  have h3 := scheduleNextArrival_pinv dur s.current_time _ hd
    (by rw [arrivalEnqueue_current_time]) h2
  split
  · exact h3
  · exact startService_pinv dur _ _ hd rfl h3

theorem processDeparture_pinv (dur : ℕ → ℚ) (w : ℚ) (c : Customer) (s : SimState)
    (hd : ∀ n, 0 < dur n) (h : PInv s)
    (harr : c.arrival_time < s.current_time) (hcid : c.id < s.next_id)
    (hcnot : c.id ∉ allIds s) : PInv (processDeparture dur w c s) := by
  have h1 := recordDeparture_pinv w c s h harr hcid hcnot
  simp only [processDeparture]
  split
  · exact h1
  · exact startService_pinv dur _ _ hd rfl h1

theorem pinv_pop (e : Event) (rest : List Event) (s : SimState)
    (hpop : popMin s.event_queue = some (e, rest)) (h : PInv s) :
    PInv { s with event_queue := rest, current_time := e.time } ∧
    (∀ c, e.customer = some c →
      c.arrival_time < e.time ∧ c.departure_time = none ∧ c.id < s.next_id ∧
      c.id ∉ allIds { s with event_queue := rest, current_time := e.time }) := by
  have hperm := popMin_perm _ _ _ hpop
  have hmin := popMin_min _ _ _ hpop
  have hsub : ∀ x ∈ rest, x ∈ s.event_queue := fun x hx =>
    hperm.symm.subset (List.mem_cons_of_mem _ hx)
  have hct : s.current_time ≤ e.time := h.qlb e (popMin_mem _ _ _ hpop)
  cases he : e.customer with
  | none =>
    have hev : (eventCustomers s.event_queue).Perm (eventCustomers rest) := by
      have h3 := hperm.filterMap Event.customer
      simpa [eventCustomers, List.filterMap_cons, he] using h3
    have hallp : (allCustomers s).Perm
        (allCustomers { s with event_queue := rest, current_time := e.time }) := by
      simp only [allCustomers, waiting]
      exact ((List.Perm.refl _).append hev).append (List.Perm.refl _)
    refine ⟨⟨?_, h.wnone, ?_, ?_, ?_, h.cdep, ?_, ?_⟩, ?_⟩
    · intro x hx
      exact hmin x (hsub x hx)
    · intro c2 hc2
      exact le_trans (h.warr c2 hc2) hct
    · intro e2 he2 c2 hc2
      exact h.dnone e2 (hsub e2 he2) c2 hc2
    · intro e2 he2 c2 hc2
      exact h.darr e2 (hsub e2 he2) c2 hc2
    · intro c2 hc2
      exact h.idlt c2 (hallp.symm.subset hc2)
    · exact (hallp.map Customer.id).nodup h.idnd
    · intro c hc
      simp at hc
  | some c0 =>
    have hev : (eventCustomers s.event_queue).Perm (c0 :: eventCustomers rest) := by
      have h3 := hperm.filterMap Event.customer
      simpa [eventCustomers, List.filterMap_cons, he] using h3
    have hallp : (allCustomers s).Perm
        (c0 :: allCustomers { s with event_queue := rest, current_time := e.time }) := by
      simp only [allCustomers, waiting]
      refine (((List.Perm.refl _).append hev).append (List.Perm.refl _)).trans ?_
      have hm := @List.perm_middle Customer c0
        (s.fastpass_queue ++ s.regular_queue) (eventCustomers rest)
      exact hm.append (List.Perm.refl s.completed)
    have hnd2 := (hallp.map Customer.id).nodup h.idnd
    refine ⟨⟨?_, h.wnone, ?_, ?_, ?_, h.cdep, ?_, ?_⟩, ?_⟩
    · intro x hx
      exact hmin x (hsub x hx)
    · intro c2 hc2
      exact le_trans (h.warr c2 hc2) hct
    · intro e2 he2 c2 hc2
      exact h.dnone e2 (hsub e2 he2) c2 hc2
    · intro e2 he2 c2 hc2
      exact h.darr e2 (hsub e2 he2) c2 hc2
    · intro c2 hc2
      exact h.idlt c2 (hallp.symm.subset (List.mem_cons_of_mem _ hc2))
    · exact (List.nodup_cons.mp hnd2).2
    · intro c hc
      obtain rfl := Option.some.inj hc
      have hcall : c0 ∈ allCustomers s := by
        rw [allCustomers]
        refine List.mem_append.mpr (Or.inl ?_)
        refine List.mem_append.mpr (Or.inr ?_)
        rw [eventCustomers]
        exact List.mem_filterMap.mpr ⟨e, popMin_mem _ _ _ hpop, he⟩
      exact ⟨h.darr e (popMin_mem _ _ _ hpop) c0 he,
        h.dnone e (popMin_mem _ _ _ hpop) c0 he,
        h.idlt c0 hcall, (List.nodup_cons.mp hnd2).1⟩

theorem pinv_run (dur unif : ℕ → ℚ) (f hor w : ℚ) (fuel : ℕ) (s : SimState)
    (hd : ∀ n, 0 < dur n) (h : PInv s) :
    PInv (runAux dur unif f hor w fuel s).1 := by
  induction fuel generalizing s with
  | zero => simpa [runAux] using h
  | succ n ih =>
    by_cases hlt : s.current_time < hor
    · cases hq : popMin s.event_queue with
      | none =>
        simp only [runAux, if_pos hlt, hq]
        exact h
      | some p =>
        obtain ⟨e, rest⟩ := p
        obtain ⟨hpop1, hpop2⟩ := pinv_pop e rest s hq h
        cases hs : stepEvent dur unif f w e { s with event_queue := rest } with
        | none =>
          simp only [runAux, if_pos hlt, hq, hs]
          exact hpop1
        | some s2 =>
          simp only [runAux, if_pos hlt, hq, hs]
          apply ih
          obtain ⟨t, k0, oc⟩ := e
          cases k0 with
          | arrival =>
            simp only [stepEvent] at hs
            obtain rfl := Option.some.inj hs
            exact processArrival_pinv dur unif f _ hd hpop1
          | departure =>
            cases oc with
            | none => simp [stepEvent] at hs
            | some c =>
              simp only [stepEvent] at hs
              obtain rfl := Option.some.inj hs
              obtain ⟨harr, hdep, hid, hnot⟩ := hpop2 c rfl
              exact processDeparture_pinv dur w c _ hd hpop1 harr hid hnot
    · simp only [runAux, if_neg hlt]
      exact h

theorem pinv_init (dur : ℕ → ℚ) (hd : ∀ n, 0 < dur n) : PInv (initState dur) := by
  refine ⟨?_, ?_, ?_, ?_, ?_, ?_, ?_, ?_⟩
  · intro x hx
    rw [initState] at hx
    rw [List.mem_singleton] at hx
    subst hx
    exact le_of_lt (hd 0)
  · intro c hc
    simp [initState, waiting] at hc
  · intro c hc
    simp [initState, waiting] at hc
  · intro e he c hc
    rw [initState] at he
    rw [List.mem_singleton] at he
    subst he
    simp at hc
  · intro e he c hc
    rw [initState] at he
    rw [List.mem_singleton] at he
    subst he
    simp at hc
  · intro c hc
    simp [initState] at hc
  · intro c hc
    simp [initState, allCustomers, waiting, eventCustomers] at hc
  · simp [allIds, initState, allCustomers, waiting, eventCustomers]

/-- Claim C8: given the generator contract (strictly positive sampled
durations), every customer whose departure event is processed gets its
departure time set exactly once — the completed customers have pairwise
distinct identities and each carries a set departure time — and the
departure time strictly exceeds the arrival time, so the residence time is
strictly positive. -/
theorem completed_residence_positive (dur unif : ℕ → ℚ) (f : ℚ) (fuel : ℕ)
    (hd : ∀ n, 0 < dur n) :
    (∀ c ∈ (runSim dur unif f fuel).1.completed,
      ∃ d, c.departure_time = some d ∧ c.arrival_time < d) ∧
    (∀ c ∈ (runSim dur unif f fuel).1.completed, ∀ r,
      c.residence_time = some r → 0 < r) ∧
    ((runSim dur unif f fuel).1.completed.map Customer.id).Nodup := by
  have hinv : PInv (runSim dur unif f fuel).1 :=
    pinv_run dur unif f SIMULATION_TIME WARM_UP_TIME fuel (initState dur) hd
      (pinv_init dur hd)
  refine ⟨hinv.cdep, ?_, ?_⟩
  · intro c hc r hr
    obtain ⟨d, h1, h2⟩ := hinv.cdep c hc
    rw [Customer.residence_time, h1] at hr
    obtain rfl := Option.some.inj hr
    exact sub_pos.mpr h2
  · have hsub : (runSim dur unif f fuel).1.completed.Sublist
        (allCustomers (runSim dur unif f fuel).1) := by
      rw [allCustomers]
      exact List.sublist_append_right _ _
    exact hinv.idnd.sublist (hsub.map Customer.id)

theorem completed_residence_positive_witness :
    (∀ c ∈ (runSim (fun _ => (1 : ℚ)) (fun _ => (1 : ℚ)/2) ((1 : ℚ)/2) 4).1.completed,
      ∃ d, c.departure_time = some d ∧ c.arrival_time < d) ∧
    (∀ c ∈ (runSim (fun _ => (1 : ℚ)) (fun _ => (1 : ℚ)/2) ((1 : ℚ)/2) 4).1.completed,
      ∀ r, c.residence_time = some r → 0 < r) ∧
    ((runSim (fun _ => (1 : ℚ)) (fun _ => (1 : ℚ)/2) ((1 : ℚ)/2) 4).1.completed.map
      Customer.id).Nodup :=
  completed_residence_positive (fun _ => 1) (fun _ => 1/2) (1/2) 4 (fun n => by norm_num)
